import Mathlib

/-!
Shallow embedding of the PrettyJSON terminal renderer (`prettyJSON.js`).

Strings are modelled as `List Char` (`Str`), matching JavaScript's view of a
string as a sequence of UTF-16 code units (all characters used here are in the
BMP, so one `Char` per code unit).  JavaScript numbers that reach the renderer
from the surrounding SQLite tool are modelled as `Int` (see the discussion of
claim C8 for the floating-point caveat).  The two process-wide configuration
statics `max_prim_length` and `discourage_multiline` are passed explicitly as a
`Config` record.
-/

abbrev Str := List Char

/-- `' '.repeat n` : a run of `n` spaces. -/
def spaces (n : Nat) : Str := List.replicate n ' '

/-- `lines.join('\n')`. -/
def joinNL (lines : List Str) : Str := List.intercalate ['\n'] lines

/-- `cells.join(sep)` for a one-character separator. -/
def joinSep (c : Char) (cells : List Str) : Str := List.intercalate [c] cells

/-- `str.slice(0, e)` : JavaScript slice with a possibly negative end index,
which then counts from the end of the string (clamped at 0). -/
def jsSliceTo (s : Str) (e : Int) : Str :=
  if 0 ≤ e then s.take e.toNat else s.take ((s.length : Int) + e).toNat

/-- `str.indexOf('\n')`, as an `Option Nat` (`none` for JavaScript's `-1`). -/
def newlineIdx : Str → Option Nat
  | [] => none
  | c :: cs => if c = '\n' then some 0 else (newlineIdx cs).map (· + 1)

/-- Characters allowed in the body of an ANSI escape `\x1b[...m`, i.e. the
regex character class `[0-9;]`. -/
def isCodeChar (c : Char) : Bool := ('0' ≤ c && c ≤ '9') || c == ';'

/-- Scan the part after a `"\x1b["` opener: consume a run of `[0-9;]`
characters followed by `'m'`; return the run and the remainder, or `none`
if the escape is not well formed (no backtracking is possible because `'m'`
is not in the class). -/
def spanCode : Str → Option (Str × Str)
  | [] => none
  | c :: cs =>
    if c = 'm' then some ([], cs)
    else if isCodeChar c then (spanCode cs).map (fun p => (c :: p.1, p.2))
    else none

/-- Does the regex `\x1b\[[0-9;]*m` match at the start of `s`?  If so,
return the remainder after the match. -/
def escSplit : Str → Option Str
  | c1 :: c2 :: rest =>
    if c1 = '\x1b' ∧ c2 = '[' then (spanCode rest).map Prod.snd else none
  | _ => none

/-- Fuelled worker for `stripColors`; the fuel is the length of the original
string, which always suffices because every step consumes at least one
character. -/
def stripAux : Nat → Str → Str
  | 0, s => s
  | _ + 1, [] => []
  | fuel + 1, c :: cs =>
    match escSplit (c :: cs) with
    | some rem => stripAux fuel rem
    | none => c :: stripAux fuel cs

/-- `#stripColors` : `str.replace(/\u001b\[[0-9;]*m/g, '')`. -/
def stripColors (s : Str) : Str := stripAux s.length s

/-- `display.match(/^\u001b\[[\d;]+m/)?.[0] || ''` : the leading ANSI escape
of a formatted value, or the empty string.  Unlike `stripColors`' pattern,
this one requires at least one `[0-9;]` character. -/
def leadColor : Str → Str
  | '\x1b' :: '[' :: rest =>
    (match spanCode rest with
     | some p => if p.1.isEmpty then [] else '\x1b' :: '[' :: (p.1 ++ ['m'])
     | none => [])
  | _ => []

/-- `str.padEnd(w)` : pad on the right with spaces up to width `w`. -/
def padEnd (s : Str) (w : Nat) : Str := s ++ spaces (w - s.length)

/-- `Math.max(0, ...l)` — the fold JavaScript's spread-`Math.max` performs,
with 0 as the base (the renderer only ever takes maxima of lengths, and the
header length is always folded in separately). -/
def listMax (l : List Nat) : Nat := l.foldl max 0

/-- The renderer's value universe: null, the three scalar kinds, arrays and
objects (ordered association lists, keys unique as in JavaScript). -/
inductive Value where
  | vnull : Value
  | vstr : Str → Value
  | vnum : Int → Value
  | vbool : Bool → Value
  | varr : List Value → Value
  | vobj : List (Str × Value) → Value

/-- The tags `#getType` can return for values of `Value` (the JavaScript
`'unknown'` case is unreachable for this universe). -/
inductive JType where
  | primitive : JType
  | array : JType
  | object : JType
deriving DecidableEq

/-- `#getType`. -/
def getType : Value → JType
  | .vnull => .primitive
  | .vstr _ => .primitive
  | .vnum _ => .primitive
  | .vbool _ => .primitive
  | .varr _ => .array
  | .vobj _ => .object

/-- The two process-wide display statics (`max_prim_length`,
`discourage_multiline`), passed explicitly. -/
structure Config where
  maxPrimLength : Int
  discourageMultiline : Bool

/-- The class defaults: `max_prim_length = -1`, `discourage_multiline = false`. -/
def defaultCfg : Config := ⟨-1, false⟩

mutual
/-- `Array.prototype.toString` : elements converted and joined with `','`,
with `null` contributing the empty string. -/
def jsArrJoin : List Value → Str
  | [] => []
  | [x] => jsArrElem x
  | x :: y :: xs => jsArrElem x ++ ',' :: jsArrJoin (y :: xs)

/-- One element of an array under `Array.prototype.toString`. -/
def jsArrElem : Value → Str
  | .vnull => []
  | .vstr s => s
  | .vnum n => (toString n).toList
  | .vbool true => "true".toList
  | .vbool false => "false".toList
  | .vobj _ => "[object Object]".toList
  | .varr xs => jsArrJoin xs
end

/-- `String(value)` : JavaScript's generic string conversion, the renderer's
fallback for non-primitive values. -/
def jsString : Value → Str
  | .vnull => "null".toList
  | .vstr s => s
  | .vnum n => (toString n).toList
  | .vbool true => "true".toList
  | .vbool false => "false".toList
  | .vobj _ => "[object Object]".toList
  | .varr xs => jsArrJoin xs

/-- The effective maximum the body of `#truncate` works with after its two
adjustments: a falsy / negative `maxLen` means "no limit" (the string's own
length), and a line break strictly before the maximum lowers it to the break
index. -/
def effLimit (s : Str) (maxLen0 : Int) : Int :=
  let m1 : Int := if maxLen0 ≤ 0 then (s.length : Int) else maxLen0
  match newlineIdx s with
  | some i => if (i : Int) < m1 then (i : Int) else m1
  | none => m1

/-- `#truncate(str, maxLen)` with the `discourage_multiline` static passed as
`dm`.  Mirrors the source line by line: the falsy/negative and line-break
adjustments (`effLimit`), the fits-check, the verbose annotations used when
`maxLen > 24 && discourage_multiline`, and the compact `slice(0, maxLen-3)`
plus `'...'` default. -/
def truncate (dm : Bool) (s : Str) (maxLen0 : Int) : Str :=
  let maxLen := effLimit s maxLen0
  if (s.length : Int) ≤ maxLen then s
  else if 24 < maxLen ∧ dm = true then
    let rem : Nat := s.length - maxLen.toNat
    if (jsSliceTo s (maxLen + 1)).getLast? = some '\n' then
      jsSliceTo s (maxLen - 21) ++ " \x1b[0m(multi-line ".toList
        ++ (toString rem).toList ++ " more...)".toList
    else
      jsSliceTo s (maxLen - 12 - ((toString rem).toList.length : Int))
        ++ "... \x1b[0m(".toList ++ (toString rem).toList ++ " more)".toList
  else
    jsSliceTo s (maxLen - 3) ++ "...".toList

/-- `#formatPrimitive` : wrap scalars in their colour spans (strings bright
yellow, numbers cyan, booleans green/red, null gray); strings and numbers are
truncated with the configured `max_prim_length`; anything else falls back to
`String(value)`. -/
def formatPrimitive (cfg : Config) : Value → Str
  | .vstr s =>
      "\x1b[93m".toList ++ truncate cfg.discourageMultiline s cfg.maxPrimLength
        ++ "\x1b[0m".toList
  | .vnum n =>
      "\x1b[36m".toList
        ++ truncate cfg.discourageMultiline (toString n).toList cfg.maxPrimLength
        ++ "\x1b[0m".toList
  | .vbool true => "\x1b[32mtrue\x1b[0m".toList
  | .vbool false => "\x1b[31mfalse\x1b[0m".toList
  | .vnull => "\x1b[90mnull\x1b[0m".toList
  | v => jsString v

/-- The field list of an object value (empty for non-objects). -/
def objFields : Value → List (Str × Value)
  | .vobj fs => fs
  | _ => []

/-- `Object.keys` of an object value. -/
def objKeys (v : Value) : List Str := (objFields v).map Prod.fst

/-- `#getType(item) === 'object'` as a Boolean. -/
def isObjectB : Value → Bool
  | .vobj _ => true
  | _ => false

/-- The per-item shape check of `#printArray`:
`keys.length === firstKeys.length && keys.every(k => firstKeys.includes(k))`. -/
def sameShape (firstKeys keys : List Str) : Bool :=
  keys.length == firstKeys.length && keys.all (fun k => firstKeys.contains k)

/-- The table-eligibility test of `#printArray` : all items are objects, all
share the first item's shape, and the first item has at least one key (the
empty array is handled before this check and never reaches the table). -/
def tableMode : List Value → Bool
  | [] => false
  | x :: xs =>
    ((x :: xs).all isObjectB
        && (x :: xs).all (fun it => sameShape (objKeys x) (objKeys it)))
      && !(objKeys x).isEmpty

/-- `#formatPrimitive(row[key])` : a missing key yields JavaScript `undefined`,
which falls through `#formatPrimitive` to `String(undefined) = "undefined"`. -/
def formatCellRaw (cfg : Config) (row : List (Str × Value)) (k : Str) : Str :=
  match row.lookup k with
  | some v => formatPrimitive cfg v
  | none => "undefined".toList

/-- The column-width computation of `#printTable`:
`Math.min(Math.max(headerLen, ...valuesLens), 50)` where each value length is
the colour-stripped formatted cell. -/
def colWidth (cfg : Config) (rows : List (List (Str × Value))) (k : Str) : Nat :=
  min (max k.length
        (listMax (rows.map (fun r => (stripColors (formatCellRaw cfg r k)).length))))
    50

/-- The truncate-then-strip step of a table cell:
`display = #truncate(plain, width)` followed by
`display.replace(/\u001b\[[0-9;]*m/g, '')`. -/
def cellPlainText (cfg : Config) (plain : Str) (w : Nat) : Str :=
  stripColors (truncate cfg.discourageMultiline plain (w : Int))

/-- One data cell of `#printTable` : format the raw value, remember its leading
colour, strip, truncate to the column width, strip again, re-wrap in the colour
with a reset, pad to the width, and surround by single spaces. -/
def tableCell (cfg : Config) (row : List (Str × Value)) (k : Str) (w : Nat) : Str :=
  let display0 := formatCellRaw cfg row k
  let colorCode := leadColor display0
  let plain := stripColors display0
  ' ' :: (colorCode ++ padEnd (cellPlainText cfg plain w) w ++ "\x1b[0m".toList) ++ [' ']

/-- `#printTable` : the boxed table for a non-empty uniform array of objects,
returned as a newline-prefixed block. -/
def printTable (cfg : Config) (arr : List Value) (indent : Nat) : Str :=
  match arr with
  | [] => []
  | a :: _ =>
    let keys := objKeys a
    let rows := arr.map objFields
    let indentStr := spaces (indent * 2)
    let wOf : Str → Nat := fun k => colWidth cfg rows k
    let totalWidth : Nat :=
      ((keys.foldl (fun sum k => sum + (wOf k : Int) + 3) (-3)) + 2).toNat
    let top := indentStr ++ '┌' :: (List.replicate totalWidth '─' ++ ['┐'])
    let headerLine := indentStr ++ '│' ::
      (joinSep '│' (keys.map (fun k =>
        ' ' :: ("\x1b[1m".toList ++ padEnd k (wOf k) ++ "\x1b[0m".toList) ++ [' ']))
        ++ ['│'])
    let sepLine := indentStr ++ '├' ::
      (joinSep '┬' (keys.map (fun k => List.replicate (wOf k + 2) '─')) ++ ['┤'])
    let rowLines := rows.map (fun r =>
      indentStr ++ '│' ::
        (joinSep '│' (keys.map (fun k => tableCell cfg r k (wOf k))) ++ ['│']))
    let bottomLine := indentStr ++ '└' ::
      (joinSep '┴' (keys.map (fun k => List.replicate (wOf k + 2) '─')) ++ ['┘'])
    '\n' :: joinNL ([top, headerLine, sepLine] ++ rowLines ++ [bottomLine])

mutual
/-- `PrettyJSON.print(obj, indent)` : dispatch on the value's type. -/
def print (cfg : Config) (v : Value) (indent : Nat) : Str :=
  match v with
  | .varr xs => printArray cfg xs indent
  | .vobj fs => printObject cfg fs indent
  | _ => spaces (indent * 2) ++ formatPrimitive cfg v
termination_by (sizeOf v, 0)

/-- `#printArray` : `[]` for the empty array, the table for uniform object
arrays, and otherwise the vertical list of recursively printed elements. -/
def printArray (cfg : Config) (xs : List Value) (indent : Nat) : Str :=
  if xs.isEmpty then spaces (indent * 2) ++ "[]".toList
  else if tableMode xs then printTable cfg xs indent
  else joinNL (listLines cfg xs indent)
termination_by (sizeOf xs, 1)

/-- The line list of `#printArray`'s vertical fallback: each element printed
recursively at `indent + 1`. -/
def listLines (cfg : Config) (xs : List Value) (indent : Nat) : List Str :=
  match xs with
  | [] => []
  | x :: rest => print cfg x (indent + 1) :: listLines cfg rest indent
termination_by (sizeOf xs, 0)

/-- `#printObject` : `\x7b\x7d` for the empty object, otherwise the joined
per-key lines. -/
def printObject (cfg : Config) (fs : List (Str × Value)) (indent : Nat) : Str :=
  if fs.isEmpty then spaces (indent * 2) ++ "\x7b\x7d".toList
  else joinNL (objLines cfg fs indent)
termination_by (sizeOf fs, 1)

/-- The line list of `#printObject` : a `key: value` line for primitive values
(note the template literal's own two leading spaces before the indent), and a
bare bold-key line followed by a recursive print at `indent + 1` for nested
values. -/
def objLines (cfg : Config) (fs : List (Str × Value)) (indent : Nat) : List Str :=
  match fs with
  | [] => []
  | (k, v) :: rest =>
    match getType v with
    | .primitive =>
      ("  ".toList ++ spaces (indent * 2) ++ "\x1b[1m".toList ++ k
          ++ "\x1b[0m: ".toList ++ formatPrimitive cfg v)
        :: objLines cfg rest indent
    | _ =>
      ("  ".toList ++ spaces (indent * 2) ++ "\x1b[1m".toList ++ k
          ++ "\x1b[0m:".toList)
        :: print cfg v (indent + 1) :: objLines cfg rest indent
termination_by (sizeOf fs, 0)
end

/-- Number of leading spaces of a display line. -/
def leadingSpaces (s : Str) : Nat := (s.takeWhile (fun c => c = ' ')).length


mutual
/-- Nesting depth of a value: scalars and null are 0, arrays and objects one
more than their deepest child. -/
def depth : Value → Nat
  | .varr xs => depthList xs + 1
  | .vobj fs => depthFields fs + 1
  | _ => 0

/-- Largest nesting depth in a list of values. -/
def depthList : List Value → Nat
  | [] => 0
  | x :: xs => max (depth x) (depthList xs)

/-- Largest nesting depth among an object's field values. -/
def depthFields : List (Str × Value) → Nat
  | [] => 0
  | (_, v) :: fs => max (depth v) (depthFields fs)
end

mutual
/-- `print` with an explicit bound on the depth of `print`-to-`print`
recursion: each nested render consumes one unit of fuel, and exhausted fuel
yields `none`.  Used to state that rendering terminates within recursion
depth `depth v + 1`. -/
def printFuel : Nat → Config → Value → Nat → Option Str
  | 0, _, _, _ => none
  | f + 1, cfg, v, ind =>
    match v with
    | .varr xs =>
      if xs.isEmpty then some (spaces (ind * 2) ++ "[]".toList)
      else if tableMode xs then some (printTable cfg xs ind)
      else (listLinesFuel f cfg xs ind).map joinNL
    | .vobj fs =>
      if fs.isEmpty then some (spaces (ind * 2) ++ "\x7b\x7d".toList)
      else (objLinesFuel f cfg fs ind).map joinNL
    | _ => some (spaces (ind * 2) ++ formatPrimitive cfg v)
termination_by f _ v _ => (f, sizeOf v)

/-- Fuelled companion of `listLines`. -/
def listLinesFuel : Nat → Config → List Value → Nat → Option (List Str)
  | _, _, [], _ => some []
  | f, cfg, x :: rest, ind =>
    match printFuel f cfg x (ind + 1), listLinesFuel f cfg rest ind with
    | some l, some ls => some (l :: ls)
    | _, _ => none
termination_by f _ xs _ => (f, sizeOf xs)

/-- Fuelled companion of `objLines`. -/
def objLinesFuel : Nat → Config → List (Str × Value) → Nat → Option (List Str)
  | _, _, [], _ => some []
  | f, cfg, (k, v) :: rest, ind =>
    match getType v with
    | .primitive =>
      (objLinesFuel f cfg rest ind).map (fun ls =>
        ("  ".toList ++ spaces (ind * 2) ++ "\x1b[1m".toList ++ k
            ++ "\x1b[0m: ".toList ++ formatPrimitive cfg v) :: ls)
    | _ =>
      match printFuel f cfg v (ind + 1), objLinesFuel f cfg rest ind with
      | some pv, some ls =>
        some (("  ".toList ++ spaces (ind * 2) ++ "\x1b[1m".toList ++ k
            ++ "\x1b[0m:".toList) :: pv :: ls)
      | _, _ => none
termination_by f _ fs _ => (f, sizeOf fs)
end


/-! ### Helper lemmas -/

theorem spanCode_snd_lt : ∀ (l : Str) (p : Str × Str), spanCode l = some p → p.2.length < l.length := by
  intro l
  induction l with
  | nil => intro p h; simp [spanCode] at h
  | cons c cs ih =>
    intro p h
    simp only [spanCode] at h
    split at h
    · cases h
      simp
    · split at h
      · cases hsp : spanCode cs with
        | none => rw [hsp] at h; simp at h
        | some q =>
          rw [hsp] at h
          simp only [Option.map_some'] at h
          cases h
          have := ih q hsp
          simp
          omega
      · simp at h

theorem escSplit_some_lt (s rem : Str) (h : escSplit s = some rem) : rem.length < s.length := by
  match s with
  | [] => simp [escSplit] at h
  | [c] => simp [escSplit] at h
  | c1 :: c2 :: rest =>
    simp only [escSplit] at h
    split at h
    · cases hsp : spanCode rest with
      | none => rw [hsp] at h; simp at h
      | some q =>
        rw [hsp] at h
        simp only [Option.map_some'] at h
        cases h
        have := spanCode_snd_lt rest q hsp
        simp
        omega
    · simp at h

theorem stripAux_length_le : ∀ (fuel : Nat) (s : Str), (stripAux fuel s).length ≤ s.length := by
  intro fuel
  induction fuel with
  | zero => intro s; simp [stripAux]
  | succ f ih =>
    intro s
    match s with
    | [] => simp [stripAux]
    | c :: cs =>
      cases hes : escSplit (c :: cs) with
      | none => simpa [stripAux, hes] using ih cs
      | some rem =>
        have h1 := escSplit_some_lt _ _ hes
        have h2 := ih rem
        simp only [stripAux, hes]
        simp at h1 ⊢
        omega

theorem stripColors_length_le (s : Str) : (stripColors s).length ≤ s.length :=
  stripAux_length_le s.length s

theorem newlineIdx_eq_none_iff (s : Str) : newlineIdx s = none ↔ '\n' ∉ s := by
  induction s with
  | nil => simp [newlineIdx]
  | cons c cs ih =>
    by_cases hc : c = '\n'
    · subst hc; simp [newlineIdx]
    · simp [newlineIdx, hc, ih, Ne.symm hc]

theorem newlineIdx_some_lt {s : Str} {i : Nat} (h : newlineIdx s = some i) : i < s.length := by
  induction s generalizing i with
  | nil => simp [newlineIdx] at h
  | cons c cs ih =>
    by_cases hc : c = '\n'
    · simp [newlineIdx, hc] at h
      simp [← h]
    · simp only [newlineIdx, if_neg hc] at h
      cases hj : newlineIdx cs with
      | none => rw [hj] at h; simp at h
      | some j =>
        rw [hj] at h
        simp at h
        have := ih hj
        simp
        omega

theorem newlineIdx_take {s : Str} {i : Nat} (h : newlineIdx s = some i) :
    '\n' ∉ s.take i := by
  induction s generalizing i with
  | nil => simp
  | cons c cs ih =>
    by_cases hc : c = '\n'
    · simp [newlineIdx, hc] at h
      subst h
      simp
    · simp only [newlineIdx, if_neg hc] at h
      cases hj : newlineIdx cs with
      | none => rw [hj] at h; simp at h
      | some j =>
        rw [hj] at h
        simp at h
        subst h
        simp [List.take_succ_cons, hc]
        exact ⟨Ne.symm hc, ih hj⟩

theorem newlineIdx_take_le {s : Str} {i j : Nat} (h : newlineIdx s = some i) (hj : j ≤ i) :
    '\n' ∉ s.take j := by
  intro hmem
  have : '\n' ∈ s.take i := by
    have := List.take_subset (l := s.take i) j
    rw [List.take_take, Nat.min_eq_left hj] at this
    exact this hmem
  exact newlineIdx_take h this

theorem effLimit_nonneg (s : Str) (m : Int) : 0 ≤ effLimit s m := by
  simp only [effLimit]
  cases h : newlineIdx s with
  | none => split <;> omega
  | some i => split <;> [omega; (split <;> omega)]

theorem effLimit_of_none_pos {s : Str} {m : Int} (h : newlineIdx s = none) (hm : 0 < m) :
    effLimit s m = m := by
  simp [effLimit, h]
  omega

theorem effLimit_of_none_nonpos {s : Str} {m : Int} (h : newlineIdx s = none) (hm : m ≤ 0) :
    effLimit s m = s.length := by
  simp [effLimit, h, hm]

theorem effLimit_of_some_lt {s : Str} {m : Int} {i : Nat}
    (h : newlineIdx s = some i) (hm : 0 < m) (hi : (i : Int) < m) :
    effLimit s m = i := by
  have : ¬ m ≤ 0 := by omega
  simp [effLimit, h, this, hi]

theorem effLimit_le_of_pos {s : Str} {m : Int} (hm : 0 < m) : effLimit s m ≤ m := by
  have : ¬ m ≤ 0 := by omega
  simp only [effLimit, this, if_false]
  cases h : newlineIdx s with
  | none => simp
  | some i => simp; split <;> omega

theorem truncate_of_fits {dm : Bool} {s : Str} {m : Int}
    (h : (s.length : Int) ≤ effLimit s m) : truncate dm s m = s := by
  simp [truncate, h]

theorem truncate_compact {dm : Bool} {s : Str} {m : Int}
    (h : ¬ (s.length : Int) ≤ effLimit s m)
    (hstyle : ¬ (24 < effLimit s m ∧ dm = true)) :
    truncate dm s m = jsSliceTo s (effLimit s m - 3) ++ "...".toList := by
  simp only [truncate, if_neg h, if_neg hstyle]

theorem jsSliceTo_of_nonneg {s : Str} {e : Int} (h : 0 ≤ e) :
    jsSliceTo s e = s.take e.toNat := by
  simp [jsSliceTo, h]

theorem listMax_ge_init : ∀ (l : List Nat) (init : Nat), init ≤ l.foldl max init := by
  intro l
  induction l with
  | nil => intro init; simp
  | cons b t ih =>
    intro init
    calc init ≤ max init b := Nat.le_max_left _ _
    _ ≤ t.foldl max (max init b) := ih _

theorem foldl_max_eq : ∀ (l : List Nat) (init : Nat), l.foldl max init = max init (l.foldl max 0) := by
  intro l
  induction l with
  | nil => intro init; simp
  | cons b t ih =>
    intro init
    simp only [List.foldl]
    rw [ih (max init b), ih (max 0 b)]
    simp [Nat.max_assoc]

theorem listMax_le_of_mem {l : List Nat} {a : Nat} (h : a ∈ l) : a ≤ listMax l := by
  induction l with
  | nil => simp at h
  | cons b t ih =>
    rcases List.mem_cons.mp h with rfl | hmem
    · simp only [listMax, List.foldl]
      rw [foldl_max_eq]
      omega
    · have := ih hmem
      simp only [listMax, List.foldl] at this ⊢
      rw [foldl_max_eq]
      omega

theorem leadingSpaces_cons_space (l : Str) : leadingSpaces (' ' :: l) = leadingSpaces l + 1 := by
  simp [leadingSpaces, List.takeWhile]

theorem leadingSpaces_spaces_append {c : Char} (k : Nat) (t : Str) (hc : c ≠ ' ') :
    leadingSpaces (spaces k ++ c :: t) = k := by
  induction k with
  | zero => simp [leadingSpaces, spaces, List.takeWhile, hc]
  | succ n ih =>
    simp only [spaces, List.replicate_succ, List.cons_append] at ih ⊢
    rw [leadingSpaces_cons_space, ih]

theorem formatPrimitive_head (cfg : Config) (v : Value) (h : getType v = JType.primitive) :
    ∃ t, formatPrimitive cfg v = '\x1b' :: t := by
  cases v with
  | vstr s => exact ⟨_, rfl⟩
  | vnum n => exact ⟨_, rfl⟩
  | vbool b => cases b <;> exact ⟨_, rfl⟩
  | vnull => exact ⟨_, rfl⟩
  | varr xs => simp [getType] at h
  | vobj fs => simp [getType] at h

theorem listLines_eq_map (cfg : Config) (xs : List Value) (ind : Nat) :
    listLines cfg xs ind = xs.map (fun v => print cfg v (ind + 1)) := by
  induction xs with
  | nil => simp [listLines]
  | cons x rest ih => simp [listLines, ih]

/-! ### Claim C10 -/

/-- Claim C10: boolean and null scalars are always rendered as the fixed style
spans for `true`, `false` and `null` and never pass through the truncator —
their formatted text is independent of the configured maximum — while string
and number scalars are exactly the ones routed through `truncate`. -/
theorem C10_fixed_bool_null (cfg : Config) :
    formatPrimitive cfg Value.vnull = "\x1b[90mnull\x1b[0m".toList ∧
    formatPrimitive cfg (Value.vbool true) = "\x1b[32mtrue\x1b[0m".toList ∧
    formatPrimitive cfg (Value.vbool false) = "\x1b[31mfalse\x1b[0m".toList ∧
    stripColors (formatPrimitive cfg Value.vnull) = "null".toList ∧
    stripColors (formatPrimitive cfg (Value.vbool true)) = "true".toList ∧
    stripColors (formatPrimitive cfg (Value.vbool false)) = "false".toList ∧
    (∀ s, formatPrimitive cfg (Value.vstr s) =
      "\x1b[93m".toList ++ truncate cfg.discourageMultiline s cfg.maxPrimLength
        ++ "\x1b[0m".toList) ∧
    (∀ n, formatPrimitive cfg (Value.vnum n) =
      "\x1b[36m".toList
        ++ truncate cfg.discourageMultiline (toString n).toList cfg.maxPrimLength
        ++ "\x1b[0m".toList) := by
  refine ⟨rfl, rfl, rfl, ?_, ?_, ?_, fun _ => rfl, fun _ => rfl⟩
  · show stripColors ("\x1b[90mnull\x1b[0m".toList) = "null".toList
    decide
  · show stripColors ("\x1b[32mtrue\x1b[0m".toList) = "true".toList
    decide
  · show stripColors ("\x1b[31mfalse\x1b[0m".toList) = "false".toList
    decide

/-! ### Claim C4 -/

/-- Claim C4, counterexample: at maximum 1 on the break-free six-character
string `abcdef`, compact truncation returns `abcd...` — seven characters, not
one — because `slice(0, 1-3)` counts from the end of the string instead of
clamping. -/
theorem C4_counterexample :
    newlineIdx "abcdef".toList = none ∧ 0 < 1 ∧ 1 < "abcdef".toList.length ∧
    truncate false "abcdef".toList 1 = "abcd...".toList ∧
    (truncate false "abcdef".toList 1).length ≠ 1 ∧
    1 < (truncate false "abcdef".toList 1).length := by decide

/-- Claim C4 (amended): for a break-free string longer than the maximum `m`,
compact truncation returns exactly `m` characters ending in three dots
provided `m ≥ 3`; for `m = 1` or `m = 2` the slice end `m - 3` is negative
and JavaScript counts it from the end of the string, so the output is longer
than `m` (see the counterexample). -/
theorem C4_compact_exact (s : Str) (m : Nat)
    (hnl : newlineIdx s = none) (h3 : 3 ≤ m) (hlen : m < s.length) :
    (truncate false s (m : Int)).length = m ∧
    (truncate false s (m : Int)).drop (m - 3) = "...".toList := by
  have hm : (0 : Int) < (m : Int) := by omega
  have he : effLimit s (m : Int) = (m : Int) := effLimit_of_none_pos hnl hm
  have hnofits : ¬ (s.length : Int) ≤ effLimit s (m : Int) := by rw [he]; omega
  have hstyle : ¬ (24 < effLimit s (m : Int) ∧ false = true) := by simp
  rw [truncate_compact hnofits hstyle, he, jsSliceTo_of_nonneg (by omega)]
  have ht : ((m : Int) - 3).toNat = m - 3 := by omega
  rw [ht]
  constructor
  · have : ("...".toList).length = 3 := by decide
    simp only [List.length_append, List.length_take, this]
    omega
  · have hlen2 : (s.take (m - 3)).length = m - 3 := by
      simp only [List.length_take]
      omega
    rw [List.drop_left' hlen2]

/-- Claim C4, witness for the amended theorem at `s = "abcdefgh"`, `m = 5`. -/
theorem C4_witness :
    (truncate false "abcdefgh".toList ((5 : Nat) : Int)).length = 5 ∧
    (truncate false "abcdefgh".toList ((5 : Nat) : Int)).drop (5 - 3) = "...".toList :=
  C4_compact_exact "abcdefgh".toList 5 (by decide) (by decide) (by decide)

/-! ### Claim C5 -/

/-- Claim C5, counterexample: `"abcdef\nxyz"` with a large maximum truncates
to `abc...` — the last three characters of the first line are replaced by the
ellipsis, so the first line is not shown in full up to the limit. -/
theorem C5_counterexample :
    newlineIdx "abcdef\nxyz".toList = some 6 ∧
    truncate false "abcdef\nxyz".toList 100 = "abc...".toList ∧
    (truncate false "abcdef\nxyz".toList 100).take 6 ≠ "abcdef".toList := by decide

/-- Claim C5 (amended): a line break at index `idx` before the positive
configured maximum lowers the effective maximum to `idx`, and ordinary compact
truncation then applies: the output keeps only the first `idx - 3` characters
of the first line plus `...` (for `idx ≥ 3`), so the tail of the first line is
dropped rather than shown in full. -/
theorem C5_break_lowers_limit (s : Str) (m : Nat) (idx : Nat)
    (hidx : newlineIdx s = some idx) (h3 : 3 ≤ idx) (hm : idx < m) :
    effLimit s (m : Int) = idx ∧
    truncate false s (m : Int) = s.take (idx - 3) ++ "...".toList := by
  have hm0 : (0 : Int) < (m : Int) := by omega
  have he : effLimit s (m : Int) = (idx : Int) := effLimit_of_some_lt hidx hm0 (by omega)
  have hlt := newlineIdx_some_lt hidx
  have hnofits : ¬ (s.length : Int) ≤ effLimit s (m : Int) := by rw [he]; omega
  have hstyle : ¬ (24 < effLimit s (m : Int) ∧ false = true) := by simp
  refine ⟨he, ?_⟩
  rw [truncate_compact hnofits hstyle, he, jsSliceTo_of_nonneg (by omega)]
  have ht : ((idx : Int) - 3).toNat = idx - 3 := by omega
  rw [ht]

/-- Claim C5, witness for the amended theorem at `s = "abcdef\nxyz"`,
`m = 100`, break index 6. -/
theorem C5_witness :
    effLimit "abcdef\nxyz".toList ((100 : Nat) : Int) = 6 ∧
    truncate false "abcdef\nxyz".toList ((100 : Nat) : Int)
      = "abcdef\nxyz".toList.take (6 - 3) ++ "...".toList :=
  C5_break_lowers_limit "abcdef\nxyz".toList 100 6 (by decide) (by decide) (by decide)

/-! ### Claim C6 -/

theorem effLimit_le_newlineIdx {s : Str} {m : Int} {i : Nat}
    (h : newlineIdx s = some i) : effLimit s m ≤ (i : Int) := by
  simp only [effLimit, h]
  split <;> split <;> omega

theorem effLimit_le_length_of_nonpos {s : Str} {m : Int} (hm : m ≤ 0) :
    effLimit s m ≤ (s.length : Int) := by
  simp only [effLimit, hm, if_true, reduceIte]
  cases h : newlineIdx s with
  | none => simp
  | some i =>
    have := newlineIdx_some_lt h
    split <;> omega

/-- Claim C6, counterexample: with maximum 1 (compact style), truncating
`abcdef` yields `abcd...`, and truncating that again with the same maximum
yields `abcd....` — a different string, so truncation is not idempotent for
every maximum. -/
theorem C6_counterexample :
    truncate false (truncate false "abcdef".toList 1) 1
        ≠ truncate false "abcdef".toList 1 ∧
    truncate false (truncate false "abcdef".toList 1) 1 = "abcd....".toList := by decide

/-- Claim C6 (amended): truncation is idempotent whenever the text already
fits the effective limit (either style, returned unchanged), and in compact
style whenever the effective limit is at least 3; when the effective limit is
1 or 2 — a maximum below the three-dot ellipsis or a line break at index
below 3 — re-truncation changes the text (see the counterexample), and the
verbose annotated style also exceeds the limit and is not idempotent. -/
theorem C6_idempotent (s : Str) (m : Int) :
    (∀ dm, (s.length : Int) ≤ effLimit s m →
      truncate dm (truncate dm s m) m = truncate dm s m) ∧
    (3 ≤ effLimit s m →
      truncate false (truncate false s m) m = truncate false s m) := by
  constructor
  · intro dm hfit
    have h0 : truncate dm s m = s := truncate_of_fits hfit
    rw [h0]
    exact h0
  · intro h3
    by_cases hfit : (s.length : Int) ≤ effLimit s m
    · have h0 : truncate false s m = s := truncate_of_fits hfit
      rw [h0]
      exact h0
    · have hstyle : ¬ (24 < effLimit s m ∧ false = true) := by simp
      have hcomp := truncate_compact hfit hstyle
      have hnn : (0 : Int) ≤ effLimit s m - 3 := by omega
      set e : Int := effLimit s m with he
      have hlen : ¬ (s.length : Int) ≤ e := hfit
      -- the truncated string
      set t : Str := truncate false s m with hts
      have ht : t = s.take (e - 3).toNat ++ "...".toList := by
        rw [hcomp, jsSliceTo_of_nonneg hnn]
      have hdots : ("...".toList).length = 3 := by decide
      have htake : (s.take (e - 3).toNat).length = (e - 3).toNat := by
        simp only [List.length_take]
        omega
      have htlen : t.length = e.toNat := by
        rw [ht]
        simp only [List.length_append, htake, hdots]
        omega
      -- no line break in the truncated string
      have hmemnl : '\n' ∉ t := by
        rw [ht]
        intro hmem
        rcases List.mem_append.mp hmem with hmem1 | hmem2
        · cases hni : newlineIdx s with
          | none => exact (newlineIdx_eq_none_iff s).mp hni (List.take_subset _ _ hmem1)
          | some i =>
            have hei := effLimit_le_newlineIdx (m := m) hni
            have : (e - 3).toNat ≤ i := by omega
            exact newlineIdx_take_le hni this hmem1
        · revert hmem2
          decide
      have hnit : newlineIdx t = none := (newlineIdx_eq_none_iff t).mpr hmemnl
      -- the second call finds the text within its effective limit
      have hfit2 : (t.length : Int) ≤ effLimit t m := by
        by_cases hm0 : m ≤ 0
        · rw [effLimit_of_none_nonpos hnit hm0]
        · have hm0' : 0 < m := by omega
          rw [effLimit_of_none_pos hnit hm0']
          have := effLimit_le_of_pos (s := s) hm0'
          rw [← he] at this
          omega
      exact truncate_of_fits hfit2

/-- Claim C6, witness for the amended theorem: both parts applied at concrete
inputs (`"abc"` fits its limit 5; `"abcdef"` at limit 4 has effective limit
4 ≥ 3 and re-truncates to the same `a...`). -/
theorem C6_witness :
    truncate true (truncate true "abc".toList 5) 5 = truncate true "abc".toList 5 ∧
    truncate false (truncate false "abcdef".toList 4) 4
      = truncate false "abcdef".toList 4 :=
  ⟨(C6_idempotent "abc".toList 5).1 true (by decide),
   (C6_idempotent "abcdef".toList 4).2 (by decide)⟩

/-! ### Claim C2 -/

/-- Claim C2, counterexample: a key of 51 characters yields column width 50,
which is strictly less than the header length, so "width ≥ header length"
fails for headers longer than the 50-character cap. -/
theorem C2_counterexample :
    50 < (List.replicate 51 'k').length ∧
    colWidth defaultCfg [[(List.replicate 51 'k', Value.vnum 1)]]
        (List.replicate 51 'k') = 50 ∧
    ¬ (List.replicate 51 'k').length ≤
        colWidth defaultCfg [[(List.replicate 51 'k', Value.vnum 1)]]
          (List.replicate 51 'k') := by decide

/-- Claim C2 (amended): the column width is
`min 50 (max headerLen (max of the stripped formatted cell lengths))`; it is
always at most 50, at least `min headerLen 50`, and at least the header length
whenever the header is at most 50 characters — a longer header is itself
capped to 50 (see the counterexample). -/
theorem C2_width_bounds (cfg : Config) (rows : List (List (Str × Value))) (k : Str) :
    colWidth cfg rows k =
      min (max k.length
            (listMax (rows.map (fun r => (stripColors (formatCellRaw cfg r k)).length))))
        50 ∧
    colWidth cfg rows k ≤ 50 ∧
    min k.length 50 ≤ colWidth cfg rows k ∧
    (k.length ≤ 50 → k.length ≤ colWidth cfg rows k) := by
  refine ⟨rfl, ?_, ?_, ?_⟩ <;> simp only [colWidth] <;> omega

/-- Claim C2, witness for the amended theorem: a two-character header within
the cap gives a width of at least 2. -/
theorem C2_witness : "ab".toList.length ≤ colWidth defaultCfg [] "ab".toList :=
  (C2_width_bounds defaultCfg [] "ab".toList).2.2.2 (by decide)

/-! ### Claim C7 -/

theorem two_spaces_append (j : Nat) : "  ".toList ++ spaces j = spaces (j + 2) := by
  show ' ' :: ' ' :: spaces j = spaces (j + 2)
  simp only [spaces, show j + 2 = (j + 1) + 1 from rfl, List.replicate_succ]

/-- Claim C7, counterexample: rendering the record with the single field
`a : null` at indent level 0 produces a key line starting with two spaces,
not the claimed `2·0 = 0` — `#printObject`'s template literal prepends two
literal spaces of its own before the indent prefix. -/
theorem C7_counterexample :
    leadingSpaces (printObject defaultCfg [("a".toList, Value.vnull)] 0) = 2 ∧
    (2 : Nat) ≠ 2 * 0 := by
  constructor
  · simp only [printObject, objLines]
    decide
  · decide

/-- Claim C7 (amended): at indent level `n`, scalar lines and the empty
record/sequence markers are prefixed with exactly `2·n` spaces, but the
`key: value` and bare-key lines a non-empty record emits carry `2·n + 2`
spaces — two more than claimed — and nested values are rendered by a
recursive call at indent `n + 1`. -/
theorem C7_indentation (cfg : Config) (n : Nat) :
    (∀ v, getType v = JType.primitive →
      print cfg v n = spaces (2 * n) ++ formatPrimitive cfg v ∧
      leadingSpaces (print cfg v n) = 2 * n) ∧
    (printObject cfg [] n = spaces (2 * n) ++ "\x7b\x7d".toList ∧
      printArray cfg [] n = spaces (2 * n) ++ "[]".toList) ∧
    (∀ k v rest, getType v = JType.primitive →
      objLines cfg ((k, v) :: rest) n =
        (spaces (2 * n + 2) ++ "\x1b[1m".toList ++ k ++ "\x1b[0m: ".toList
            ++ formatPrimitive cfg v)
          :: objLines cfg rest n) ∧
    (∀ k v rest, getType v ≠ JType.primitive →
      objLines cfg ((k, v) :: rest) n =
        (spaces (2 * n + 2) ++ "\x1b[1m".toList ++ k ++ "\x1b[0m:".toList)
          :: print cfg v (n + 1) :: objLines cfg rest n) ∧
    (∀ k t, leadingSpaces (spaces (2 * n + 2) ++ "\x1b[1m".toList ++ k ++ t)
      = 2 * n + 2) := by
  have hmul : n * 2 = 2 * n := Nat.mul_comm n 2
  refine ⟨?_, ⟨?_, ?_⟩, ?_, ?_, ?_⟩
  · intro v hv
    have hprint : print cfg v n = spaces (2 * n) ++ formatPrimitive cfg v := by
      cases v <;> simp_all [print, getType, hmul]
    refine ⟨hprint, ?_⟩
    obtain ⟨t, hhead⟩ := formatPrimitive_head cfg v hv
    rw [hprint, hhead]
    exact leadingSpaces_spaces_append _ _ (by decide)
  · simp [printObject, hmul]
  · simp [printArray, hmul]
  · intro k v rest hv
    simp only [objLines, hv, ← two_spaces_append, hmul, List.append_assoc]
  · intro k v rest hv
    have : objLines cfg ((k, v) :: rest) n =
        ("  ".toList ++ spaces (n * 2) ++ "\x1b[1m".toList ++ k ++ "\x1b[0m:".toList)
          :: print cfg v (n + 1) :: objLines cfg rest n := by
      cases v <;> simp_all [objLines, getType]
    rw [this, ← two_spaces_append, hmul]
  · intro k t
    have : spaces (2 * n + 2) ++ "\x1b[1m".toList ++ k ++ t
        = spaces (2 * n + 2) ++ '\x1b' :: ("[1m".toList ++ k ++ t) := by
      simp
    rw [this]
    exact leadingSpaces_spaces_append _ _ (by decide)

/-- Claim C7, witness for the amended theorem: a null scalar printed at
indent 1 carries exactly two leading spaces. -/
theorem C7_witness :
    print defaultCfg Value.vnull 1 = spaces (2 * 1) ++ formatPrimitive defaultCfg Value.vnull ∧
    leadingSpaces (print defaultCfg Value.vnull 1) = 2 * 1 :=
  (C7_indentation defaultCfg 1).1 Value.vnull rfl

/-! ### Claim C1 -/

theorem sameShape_iff {u v : List Str} (hu : u.Nodup) (hv : v.Nodup) :
    sameShape u v = true ↔ (∀ k, k ∈ v ↔ k ∈ u) := by
  constructor
  · intro h
    simp only [sameShape, Bool.and_eq_true, beq_iff_eq, List.all_eq_true] at h
    obtain ⟨hlen, hsub⟩ := h
    have hsub' : v.toFinset ⊆ u.toFinset := by
      intro a ha
      rw [List.mem_toFinset] at ha ⊢
      simpa using hsub a ha
    have hcard : u.toFinset.card ≤ v.toFinset.card := by
      rw [List.toFinset_card_of_nodup hu, List.toFinset_card_of_nodup hv, hlen]
    have heq := Finset.eq_of_subset_of_card_le hsub' hcard
    intro k
    rw [← List.mem_toFinset, ← List.mem_toFinset (l := u), heq]
  · intro h
    have heq : v.toFinset = u.toFinset := by
      ext a
      rw [List.mem_toFinset, List.mem_toFinset]
      exact h a
    have hlen : v.length = u.length := by
      rw [← List.toFinset_card_of_nodup hu, ← List.toFinset_card_of_nodup hv, heq]
    simp only [sameShape, Bool.and_eq_true, beq_iff_eq, List.all_eq_true]
    refine ⟨hlen, ?_⟩
    intro k hk
    simpa using (h k).mp hk

/-- Claim C1, counterexample: the empty sequence fails the table condition
(it is not non-empty) yet is rendered as the literal `[]`, not as a vertical
list of recursively printed elements (which would be the empty string). -/
theorem C1_counterexample :
    tableMode ([] : List Value) = false ∧
    printArray defaultCfg ([] : List Value) 0 = "[]".toList ∧
    printArray defaultCfg ([] : List Value) 0
      ≠ joinNL (([] : List Value).map (fun v => print defaultCfg v 1)) := by
  refine ⟨rfl, ?_, ?_⟩
  · simp [printArray, spaces]
  · simp only [printArray, List.isEmpty_nil, if_true, reduceIte, List.map_nil]
    decide

/-- Claim C1 (amended): for records with JavaScript-unique keys, table layout
is chosen iff the sequence is non-empty, every element is a record, all
records have equal key sets, and that key set is non-empty; any **non-empty**
sequence failing the condition is rendered as the vertical list of recursively
printed elements, while the empty sequence renders as the literal `[]` (see
the counterexample). -/
theorem C1_layout (cfg : Config) (arr : List Value) (ind : Nat)
    (hnd : ∀ v ∈ arr, (objKeys v).Nodup) :
    (tableMode arr = true ↔
      arr ≠ [] ∧ (∀ v ∈ arr, isObjectB v = true) ∧
      (∀ v ∈ arr, ∀ w ∈ arr, ∀ k, k ∈ objKeys v ↔ k ∈ objKeys w) ∧
      (∀ v ∈ arr, objKeys v ≠ [])) ∧
    (arr ≠ [] → tableMode arr = true →
      printArray cfg arr ind = printTable cfg arr ind) ∧
    (arr ≠ [] → tableMode arr = false →
      printArray cfg arr ind = joinNL (arr.map (fun v => print cfg v (ind + 1)))) := by
  refine ⟨?_, ?_, ?_⟩
  · cases arr with
    | nil => simp [tableMode]
    | cons x xs =>
      have hx : x ∈ x :: xs := List.mem_cons_self x xs
      constructor
      · intro h
        simp only [tableMode, Bool.and_eq_true, List.all_eq_true,
          Bool.not_eq_true', List.isEmpty_eq_false] at h
        obtain ⟨⟨hobj, hshape⟩, hne⟩ := h
        have hkey : ∀ v ∈ x :: xs, ∀ k, k ∈ objKeys v ↔ k ∈ objKeys x := by
          intro v hv
          exact (sameShape_iff (hnd x hx) (hnd v hv)).mp (hshape v hv)
        refine ⟨List.cons_ne_nil x xs, hobj, ?_, ?_⟩
        · intro v hv w hw k
          rw [hkey v hv k, hkey w hw k]
        · intro v hv
          obtain ⟨k, hk⟩ := List.exists_mem_of_ne_nil _ hne
          exact List.ne_nil_of_mem ((hkey v hv k).mpr hk)
      · intro ⟨_, hobj, hiff, hne⟩
        simp only [tableMode, Bool.and_eq_true, List.all_eq_true,
          Bool.not_eq_true', List.isEmpty_eq_false]
        refine ⟨⟨hobj, ?_⟩, hne x hx⟩
        intro v hv
        exact (sameShape_iff (hnd x hx) (hnd v hv)).mpr (fun k => hiff v hv x hx k)
  · intro hne htab
    have hemp : arr.isEmpty = false := by
      cases arr with
      | nil => exact absurd rfl hne
      | cons x xs => rfl
    simp [printArray, hemp, htab]
  · intro hne htab
    have hemp : arr.isEmpty = false := by
      cases arr with
      | nil => exact absurd rfl hne
      | cons x xs => rfl
    simp [printArray, hemp, htab, listLines_eq_map]

/-- Claim C1, witness for the amended theorem: a uniform two-record sequence
with key `x` is table-eligible and delegates to `#printTable`. -/
theorem C1_witness :
    printArray defaultCfg
        [Value.vobj [("x".toList, Value.vnum 1)], Value.vobj [("x".toList, Value.vnum 3)]] 0
      = printTable defaultCfg
        [Value.vobj [("x".toList, Value.vnum 1)], Value.vobj [("x".toList, Value.vnum 3)]] 0 :=
  (C1_layout defaultCfg
      [Value.vobj [("x".toList, Value.vnum 1)], Value.vobj [("x".toList, Value.vnum 3)]] 0
      (by decide)).2.1 (List.cons_ne_nil _ _) (by decide)

/-! ### Claim C3 -/

/-- Claim C3, counterexample: the single-column table over the record
`k : "a\nbcde"` gets column width 7 (the stripped formatted cell `a\nbc...`),
but the cell's second truncation hits the line break at index 1, so the
compact slice end `1 - 3` counts from the end of the string and the truncated,
colour-stripped cell text has length 8 > 7 — even with the
discourage-multiline flag off. -/
theorem C3_counterexample :
    colWidth defaultCfg [[("k".toList, Value.vstr "a\nbcde".toList)]] "k".toList = 7 ∧
    (cellPlainText defaultCfg
        (stripColors (formatCellRaw defaultCfg
          [("k".toList, Value.vstr "a\nbcde".toList)] "k".toList))
        (colWidth defaultCfg [[("k".toList, Value.vstr "a\nbcde".toList)]] "k".toList)).length
      = 8 := by decide

/-- Claim C3 (amended): in compact style (discourage-multiline flag off), for
every table row and column whose stripped formatted cell text contains no
line break, the truncated and colour-stripped cell text has length at most
the column width; a line break in the cell (reachable via a break at index
below 3 in a string scalar, or via the untruncated `String(...)` fallback for
nested values) can push the cell past the width, as the counterexample
shows. -/
theorem C3_cell_fits (cfg : Config) (rows : List (List (Str × Value))) (k : Str)
    (r : List (Str × Value)) (hdm : cfg.discourageMultiline = false) (hr : r ∈ rows)
    (hnl : newlineIdx (stripColors (formatCellRaw cfg r k)) = none) :
    (cellPlainText cfg (stripColors (formatCellRaw cfg r k)) (colWidth cfg rows k)).length
      ≤ colWidth cfg rows k := by
  have hLM : (stripColors (formatCellRaw cfg r k)).length
      ≤ listMax (rows.map (fun q => (stripColors (formatCellRaw cfg q k)).length)) :=
    listMax_le_of_mem
      (List.mem_map_of_mem (fun q => (stripColors (formatCellRaw cfg q k)).length) hr)
  by_cases hLw : (stripColors (formatCellRaw cfg r k)).length ≤ colWidth cfg rows k
  · have hfit : ((stripColors (formatCellRaw cfg r k)).length : Int)
        ≤ effLimit (stripColors (formatCellRaw cfg r k)) ((colWidth cfg rows k : Nat) : Int) := by
      by_cases hw0 : colWidth cfg rows k = 0
      · rw [hw0]
        rw [effLimit_of_none_nonpos hnl (by omega)]
      · rw [effLimit_of_none_pos hnl (by omega)]
        omega
    rw [cellPlainText, hdm, truncate_of_fits hfit]
    calc (stripColors (stripColors (formatCellRaw cfg r k))).length
        ≤ (stripColors (formatCellRaw cfg r k)).length := stripColors_length_le _
      _ ≤ colWidth cfg rows k := hLw
  · have hw50 : colWidth cfg rows k = 50 := by
      simp only [colWidth] at hLw ⊢
      omega
    have hL50 : 50 < (stripColors (formatCellRaw cfg r k)).length := by
      rw [hw50] at hLw
      omega
    have heff : effLimit (stripColors (formatCellRaw cfg r k)) ((50 : Nat) : Int) = 50 :=
      effLimit_of_none_pos hnl (by omega)
    have hnofits : ¬ ((stripColors (formatCellRaw cfg r k)).length : Int)
        ≤ effLimit (stripColors (formatCellRaw cfg r k)) ((50 : Nat) : Int) := by
      rw [heff]
      omega
    have hstyle : ¬ (24 < effLimit (stripColors (formatCellRaw cfg r k)) ((50 : Nat) : Int)
        ∧ false = true) := by simp
    rw [cellPlainText, hdm, hw50, truncate_compact hnofits hstyle, heff]
    rw [jsSliceTo_of_nonneg (by omega)]
    calc (stripColors (List.take ((50 : Int) - 3).toNat (stripColors (formatCellRaw cfg r k))
          ++ "...".toList)).length
        ≤ (List.take ((50 : Int) - 3).toNat (stripColors (formatCellRaw cfg r k))
          ++ "...".toList).length := stripColors_length_le _
      _ ≤ 50 := by
          simp only [List.length_append, List.length_take]
          have : ("...".toList).length = 3 := by decide
          omega

/-- Claim C3, witness for the amended theorem: a one-row, one-column table
over the record `k : 5` (cell text `5`, width 1). -/
theorem C3_witness :
    (cellPlainText defaultCfg
        (stripColors (formatCellRaw defaultCfg [("k".toList, Value.vnum 5)] "k".toList))
        (colWidth defaultCfg [[("k".toList, Value.vnum 5)]] "k".toList)).length
      ≤ colWidth defaultCfg [[("k".toList, Value.vnum 5)]] "k".toList :=
  C3_cell_fits defaultCfg [[("k".toList, Value.vnum 5)]] "k".toList
    [("k".toList, Value.vnum 5)] rfl (List.mem_cons_self _ _) (by decide)

/-! ### Claim C9 -/

theorem depth_le_depthList {x : Value} {xs : List Value} (h : x ∈ xs) :
    depth x ≤ depthList xs := by
  induction xs with
  | nil => simp at h
  | cons y t ih =>
    rcases List.mem_cons.mp h with rfl | hmem
    · simp [depthList]
    · have := ih hmem
      simp only [depthList]
      omega

theorem depth_le_depthFields {k : Str} {v : Value} {fs : List (Str × Value)}
    (h : (k, v) ∈ fs) : depth v ≤ depthFields fs := by
  induction fs with
  | nil => simp at h
  | cons p t ih =>
    rcases List.mem_cons.mp h with heq | hmem
    · rw [← heq]
      simp only [depthFields]
      omega
    · have := ih hmem
      cases p with
      | mk k2 v2 =>
        simp only [depthFields]
        omega

theorem printFuel_sufficient : ∀ (f : Nat) (cfg : Config) (v : Value) (ind : Nat),
    depth v < f → printFuel f cfg v ind = some (print cfg v ind) := by
  intro f
  induction f with
  | zero => intro cfg v ind h; omega
  | succ f ih =>
    intro cfg v ind h
    cases v with
    | vnull => simp [printFuel, print]
    | vstr s => simp [printFuel, print]
    | vnum n => simp [printFuel, print]
    | vbool b => simp [printFuel, print]
    | varr xs =>
      have hxs : ∀ x ∈ xs, depth x < f := by
        intro x hx
        have h1 := depth_le_depthList hx
        have h2 : depth (Value.varr xs) = depthList xs + 1 := by simp [depth]
        omega
      have hlist : ∀ ys, (∀ x ∈ ys, depth x < f) →
          listLinesFuel f cfg ys ind = some (listLines cfg ys ind) := by
        intro ys
        induction ys with
        | nil => intro _; simp [listLinesFuel, listLines]
        | cons y t iht =>
          intro hall
          have h1 : printFuel f cfg y (ind + 1) = some (print cfg y (ind + 1)) :=
            ih cfg y (ind + 1) (hall y (List.mem_cons_self y t))
          have h2 := iht (fun x hx => hall x (List.mem_cons_of_mem y hx))
          simp [listLinesFuel, listLines, h1, h2]
      by_cases hemp : xs.isEmpty
      · simp [printFuel, print, printArray, hemp]
      · by_cases htab : tableMode xs
        · simp [printFuel, print, printArray, hemp, htab]
        · simp [printFuel, print, printArray, hemp, htab, hlist xs hxs]
    | vobj fs =>
      have hfs : ∀ p ∈ fs, depth (Prod.snd p) < f := by
        intro p hp
        have h1 : depth p.2 ≤ depthFields fs := depth_le_depthFields (k := p.1) (by
          cases p with
          | mk a b => exact hp)
        have h2 : depth (Value.vobj fs) = depthFields fs + 1 := by simp [depth]
        omega
      have hobj : ∀ gs, (∀ p ∈ gs, depth (Prod.snd p) < f) →
          objLinesFuel f cfg gs ind = some (objLines cfg gs ind) := by
        intro gs
        induction gs with
        | nil => intro _; simp [objLinesFuel, objLines]
        | cons p t iht =>
          intro hall
          obtain ⟨k, v⟩ := p
          have h2 := iht (fun q hq => hall q (List.mem_cons_of_mem _ hq))
          cases hgt : getType v with
          | primitive => simp [objLinesFuel, objLines, hgt, h2]
          | array =>
            have h1 : printFuel f cfg v (ind + 1) = some (print cfg v (ind + 1)) :=
              ih cfg v (ind + 1) (hall (k, v) (List.mem_cons_self _ _))
            simp [objLinesFuel, objLines, hgt, h1, h2]
          | object =>
            have h1 : printFuel f cfg v (ind + 1) = some (print cfg v (ind + 1)) :=
              ih cfg v (ind + 1) (hall (k, v) (List.mem_cons_self _ _))
            simp [objLinesFuel, objLines, hgt, h1, h2]
      by_cases hemp : fs.isEmpty
      · simp [printFuel, print, printObject, hemp]
      · simp [printFuel, print, printObject, hemp, hobj fs hfs]

/-- Claim C9: for every finite value tree, rendering terminates and returns a
string, with `print`-to-`print` recursion depth bounded by the nesting depth
of the input: the fuelled renderer already succeeds with `depth v + 1` units
of fuel and agrees with the total function `print`. -/
theorem C9_terminates (cfg : Config) (v : Value) (ind : Nat) :
    printFuel (depth v + 1) cfg v ind = some (print cfg v ind) :=
  printFuel_sufficient (depth v + 1) cfg v ind (by omega)
